import Mathlib

/-!
Verification development for the xten CLI (a thin orchestration layer over
external media tools).  The Python source under `src/xten/` is shallowly
embedded: pure planning functions become Lean functions, the filesystem is an
explicit list of existing paths, the external probe is an explicit
environment record, and Python numerics are idealised as exact rationals
(`ℚ`) with `int()` modelled as truncation toward zero.
-/

/-! ### Python numeric primitives -/

/-- Python `int()` applied to a (non-integer) number truncates toward zero. -/
def pyInt (q : ℚ) : ℤ := if 0 ≤ q then ⌊q⌋ else ⌈q⌉

/-- Numeric value of a list of decimal digit characters, most significant
first (the value `int()` gives a string of ASCII digits). -/
def digitsVal (l : List Char) : ℕ := l.foldl (fun a c => 10 * a + (c.toNat - 48)) 0

/-- Decimal digit characters of `n`, most significant first; `fuel`-driven
so that it is structurally recursive.  Mirrors the rendering a Python
f-string performs on an `int`. -/
def natDecimalAux : ℕ → ℕ → List Char
  | 0, _ => []
  | fuel + 1, n =>
    if n < 10 then [Nat.digitChar n]
    else natDecimalAux fuel (n / 10) ++ [Nat.digitChar (n % 10)]

/-- Decimal rendering of a natural number (`f"{n}"` in Python). -/
def natDecimal (n : ℕ) : List Char := natDecimalAux (n + 1) n

def natDecimalStr (n : ℕ) : String := ⟨natDecimal n⟩

/-- Python `str.strip()`: drop whitespace from both ends.  (Defined on the
character list so that it evaluates by kernel reduction.) -/
def pyStrip (s : String) : String :=
  ⟨((s.data.dropWhile Char.isWhitespace).reverse.dropWhile Char.isWhitespace).reverse⟩

/-! ### Python `float()` string acceptance

`float(s)` accepts an optionally signed decimal literal (underscores allowed
strictly between digits, optional fraction and exponent) or one of the
special words `inf` / `infinity` / `nan` (case-insensitive). -/

/-- Digit group with underscores allowed strictly between digits:
continuation after an initial digit. -/
def duTail : List Char → Bool
  | [] => true
  | c :: r =>
    if c = '_' then
      match r with
      | [] => false
      | d :: r2 => d.isDigit && duTail r2
    else c.isDigit && duTail r

/-- A valid digit group: nonempty, starts with a digit, underscores only
between digits. -/
def duOk : List Char → Bool
  | [] => false
  | c :: r => c.isDigit && duTail r

/-- Remove the underscores of a digit group. -/
def stripUnd (l : List Char) : List Char := l.filter (fun c => c ≠ '_')

/-- Strip one leading sign character. -/
def stripSign (l : List Char) : List Char :=
  match l with
  | c :: r => if c = '+' || c = '-' then r else c :: r
  | [] => []

/-- Mantissa (no exponent part): `digits [. [digits]]` or `. digits`. -/
def mantissaOk (l : List Char) : Bool :=
  let ip := l.takeWhile (fun c => c ≠ '.')
  let rest := l.dropWhile (fun c => c ≠ '.')
  match rest with
  | [] => duOk ip
  | _ :: fp => (duOk ip && (fp.isEmpty || duOk fp)) || (ip.isEmpty && duOk fp)

/-- Signed decimal literal with optional exponent (the part after an
optional leading sign). -/
def pyFloatCore (l : List Char) : Bool :=
  let mant := l.takeWhile (fun c => c ≠ 'e' && c ≠ 'E')
  let rest := l.dropWhile (fun c => c ≠ 'e' && c ≠ 'E')
  match rest with
  | [] => mantissaOk mant
  | _ :: expPart => mantissaOk mant && duOk (stripSign expPart)

/-- Does Python `float(s)` succeed? -/
def pyFloatAccepts (s : String) : Bool :=
  let l := stripSign (pyStrip s).data
  let low := l.map Char.toLower
  if low = "inf".data || low = "infinity".data || low = "nan".data then true
  else pyFloatCore l

/-- The value domain of Python floats, idealised: exact rationals plus the
special values. -/
inductive PyFloat where
  | finite (q : ℚ)
  | inf
  | negInf
  | nan
deriving DecidableEq

/-- Value of a successful `float(s)` (meaningful only when
`pyFloatAccepts s`; returns junk otherwise). -/
def pyFloatValue (s : String) : PyFloat :=
  let t := (pyStrip s).data
  let neg : Bool := match t with | '-' :: _ => true | _ => false
  let l := stripSign t
  let low := l.map Char.toLower
  if low = "inf".data || low = "infinity".data then
    if neg then .negInf else .inf
  else if low = "nan".data then .nan
  else
    let mant := l.takeWhile (fun c => c ≠ 'e' && c ≠ 'E')
    let expPart := match l.dropWhile (fun c => c ≠ 'e' && c ≠ 'E') with
      | [] => []
      | _ :: e => e
    let expNeg : Bool := match expPart with | '-' :: _ => true | _ => false
    let expDigits := stripUnd (stripSign expPart)
    let expVal : ℤ := if expNeg then -(digitsVal expDigits : ℤ) else (digitsVal expDigits : ℤ)
    let ip := stripUnd (mant.takeWhile (fun c => c ≠ '.'))
    let fp := stripUnd (match mant.dropWhile (fun c => c ≠ '.') with
      | [] => []
      | _ :: f => f)
    let mag : ℚ := ((digitsVal ip : ℚ) + (digitsVal fp : ℚ) / 10 ^ fp.length) * (10 : ℚ) ^ expVal
    .finite (if neg then -mag else mag)

/-! ### `os.path.splitext` -/

/-- Index of the last occurrence of a character. -/
def rfindIdx (ch : Char) : List Char → Option ℕ
  | [] => none
  | c :: cs =>
    match rfindIdx ch cs with
    | some i => some (i + 1)
    | none => if c = ch then some 0 else none

/-- `posixpath.splitext` on the character list of a path: split at the last
dot of the basename, provided the part of the basename before that dot is
not entirely dots. -/
def splitextData (l : List Char) : List Char × List Char :=
  match rfindIdx '.' l with
  | none => (l, [])
  | some di =>
    let fi : ℕ := match rfindIdx '/' l with
      | some si => si + 1
      | none => 0
    if di + 1 ≤ fi then (l, [])
    else if ((l.drop fi).take (di - fi)).any (fun c => c ≠ '.') then
      (l.take di, l.drop di)
    else (l, [])

/-- `os.path.splitext` for strings. -/
def splitext (p : String) : String × String :=
  (⟨(splitextData p.data).1⟩, ⟨(splitextData p.data).2⟩)

/-! ### Output path resolution (`resolve_output_name`, compress.py/trim.py)

The filesystem is modelled as the list `fs` of paths that exist at call
time; `os.path.exists` is membership in `fs`. -/

/-- The candidate `f"{name}_{counter}{ext}"`. -/
def candidate (name ext : String) (counter : ℕ) : String :=
  name ++ "_" ++ natDecimalStr counter ++ ext

/-- The `while True` search loop of `resolve_output_name`, with explicit
fuel.  `fs.length + 1` candidates are pairwise distinct, so fuel
`fs.length + 1` always suffices (`resolveLoop_isSome` below); the `none`
case is unreachable. -/
def resolveLoop (fs : List String) (name ext : String) : ℕ → ℕ → Option String
  | 0, _ => none
  | fuel + 1, counter =>
    if candidate name ext counter ∈ fs then
      resolveLoop fs name ext fuel (counter + 1)
    else some (candidate name ext counter)

/-- `resolve_output_name(base_path)` from compress.py / trim.py: return
`base_path` if it does not exist, else the first `name_i.ext` that does
not exist, counting from 1. -/
def resolve_output_name (fs : List String) (base_path : String) : String :=
  if base_path ∈ fs then
    (resolveLoop fs (splitext base_path).1 (splitext base_path).2 (fs.length + 1) 1).getD base_path
  else base_path

/-! ### Compression plans (compress.py) -/

/-- The dataclass `CompressionPlan` of compress.py. -/
structure CompressionPlan where
  input_file : String
  output_file : String
  duration : ℚ
  mode : String
  target_mb : Option ℚ
  video_bitrate : Option ℤ
  audio_bitrate : Option ℤ
  crf : Option ℤ
  preset : String
  command : List String
deriving DecidableEq

/-- `build_target_plan` from compress.py.  `fs` is the filesystem at call
time and `duration` the value returned by the `get_duration` probe of the
input file. -/
def build_target_plan (fs : List String) (input_file : String) (target_mb : ℚ)
    (preset : String) (force : Bool) (duration : ℚ) : CompressionPlan :=
  let audio_bitrate : ℤ := 128000
  let target_bits : ℚ := target_mb * 8 * 1024 * 1024
  let total_bitrate : ℤ := pyInt (target_bits / duration * (0.95 : ℚ))
  let video_bitrate : ℤ := max (total_bitrate - audio_bitrate) 100000
  let base_output : String := (splitext input_file).1 ++ "_xten.mp4"
  let output_file : String := if force then base_output else resolve_output_name fs base_output
  let cmd : List String :=
    ["ffmpeg"] ++ (if force then ["-y"] else []) ++
      ["-i", input_file,
       "-b:v", toString video_bitrate,
       "-b:a", toString audio_bitrate,
       "-preset", preset,
       "-movflags", "+faststart",
       output_file]
  { input_file := input_file
    output_file := output_file
    duration := duration
    mode := "target"
    target_mb := some target_mb
    video_bitrate := some video_bitrate
    audio_bitrate := some audio_bitrate
    crf := none
    preset := preset
    command := cmd }

/-- `build_crf_plan` from compress.py. -/
def build_crf_plan (fs : List String) (input_file : String) (crf : ℤ)
    (preset : String) (force : Bool) (duration : ℚ) : CompressionPlan :=
  let base_output : String := (splitext input_file).1 ++ "_xten.mp4"
  let output_file : String := if force then base_output else resolve_output_name fs base_output
  let cmd : List String :=
    ["ffmpeg"] ++ (if force then ["-y"] else []) ++
      ["-i", input_file,
       "-crf", toString crf,
       "-preset", preset,
       "-movflags", "+faststart",
       output_file]
  { input_file := input_file
    output_file := output_file
    duration := duration
    mode := "crf"
    target_mb := none
    video_bitrate := none
    audio_bitrate := none
    crf := some crf
    preset := preset
    command := cmd }

/-! ### Trim plans (trim.py) -/

/-- The dataclass `TrimPlan` of trim.py. -/
structure TrimPlan where
  input_file : String
  output_file : String
  duration : ℚ
  start : String
  «end» : String
  command : List String
deriving DecidableEq

/-- `build_trim_plan` from trim.py. -/
def build_trim_plan (fs : List String) (input_file start endLabel : String)
    (force : Bool) (duration : ℚ) : TrimPlan :=
  let base_output : String := (splitext input_file).1 ++ "_xten_trim.mp4"
  let output_file : String := if force then base_output else resolve_output_name fs base_output
  let cmd : List String :=
    ["ffmpeg"] ++ (if force then ["-y"] else []) ++
      ["-ss", start,
       "-to", endLabel,
       "-i", input_file,
       "-c", "copy",
       "-movflags", "+faststart",
       output_file]
  { input_file := input_file
    output_file := output_file
    duration := duration
    start := start
    «end» := endLabel
    command := cmd }

/-! ### Time label normalization (trim.py) -/

/-- The error raised by `normalize_time_label` (a `ValueError` in the
source; the spec calls it `InvalidTime`). -/
inductive TimeError where
  | invalidTime
deriving DecidableEq

/-- `normalize_time_label` from trim.py: strip, reject empty, accept any
string `float()` accepts, otherwise require a colon. -/
def normalize_time_label (t : String) : Except TimeError String :=
  let t := pyStrip t
  if t = "" then .error .invalidTime
  else if pyFloatAccepts t then .ok t
  else if ':' ∈ t.data then .ok t
  else .error .invalidTime

/-! ### ffmpeg progress parsing (trim.py / compress.py)

The regex `time=(\d+):(\d+):(\d+\.\d+)` searched over a stderr line.  The
search is modelled as leftmost match with maximal digit runs, which agrees
with the regex engine here because every `\d+` group is followed by a
non-digit literal or the end of the pattern. -/

/-- Maximal digit prefix and the remainder. -/
def takeDigits : List Char → List Char × List Char
  | [] => ([], [])
  | c :: r =>
    if c.isDigit then
      ((c :: (takeDigits r).1), (takeDigits r).2)
    else ([], c :: r)

/-- The captured groups of `time=(\d+):(\d+):(\d+\.\d+)`: hour digits,
minute digits, integer-second digits, fractional-second digits. -/
structure TimeGroups where
  h : List Char
  m : List Char
  si : List Char
  sf : List Char
deriving DecidableEq

/-- Match one `\\d+` group: its maximal digit run, which must be
nonempty. -/
def matchGroup (l : List Char) : Option (List Char × List Char) :=
  match takeDigits l with
  | ([], _) => none
  | (d, r) => some (d, r)

/-- Match one literal character. -/
def expectChar (c : Char) : List Char → Option (List Char)
  | x :: r => if x = c then some r else none
  | [] => none

/-- Try to match the pattern at the head of the character list:
`time=` then digits, `:`, digits, `:`, digits, `.`, digits. -/
def matchTimeAt (cs : List Char) : Option TimeGroups :=
  match cs with
  | 't' :: 'i' :: 'm' :: 'e' :: '=' :: rest =>
    match matchGroup rest with
    | some (h, r1) =>
      match expectChar ':' r1 with
      | some r2 =>
        match matchGroup r2 with
        | some (m, r3) =>
          match expectChar ':' r3 with
          | some r4 =>
            match matchGroup r4 with
            | some (si, r5) =>
              match expectChar '.' r5 with
              | some r6 =>
                match matchGroup r6 with
                | some (sf, _) => some ⟨h, m, si, sf⟩
                | none => none
              | none => none
            | none => none
          | none => none
        | none => none
      | none => none
    | none => none
  | _ => none

/-- `re.search`: try the pattern at every start position, leftmost first. -/
def searchTime : List Char → Option TimeGroups
  | [] => none
  | c :: cs =>
    match matchTimeAt (c :: cs) with
    | some g => some g
    | none => searchTime cs

/-- `int(g1) * 3600 + int(g2) * 60 + float(g3)` for groups `g1 g2 g3`,
where `g3` is `si.sf`. -/
def groupsToSeconds (g : TimeGroups) : ℚ :=
  (digitsVal g.h : ℚ) * 3600 + (digitsVal g.m : ℚ) * 60 +
    ((digitsVal g.si : ℚ) + (digitsVal g.sf : ℚ) / 10 ^ g.sf.length)

/-- `parse_ffmpeg_time_to_seconds` from trim.py. -/
def parse_ffmpeg_time_to_seconds (line : String) : Option ℚ :=
  (searchTime line.data).map groupsToSeconds

/-- The progress updates issued by trim.py's `execute_plan` while reading
the stderr lines of the subprocess: one `progress.update(task,
completed=min(t, plan.duration))` per line whose parse succeeds. -/
def trim_progress_updates (dur : ℚ) : List String → List ℚ
  | [] => []
  | l :: ls =>
    match parse_ffmpeg_time_to_seconds l with
    | some t => min t dur :: trim_progress_updates dur ls
    | none => trim_progress_updates dur ls

/-! ### Duration probe (services/ffmpeg_service.py)

The external prober is modelled by an environment record: whether the
program is on the PATH, the exit status of the invocation, and the result
of `json.loads` on its captured stdout (`none` when stdout is not valid
JSON, in which case `json.loads` raises). -/

/-- JSON values as produced by `json.loads` (integers and floats kept
apart, since Python `int()` accepts one and not the other). -/
inductive Json where
  | null
  | bool (b : Bool)
  | intNum (z : ℤ)
  | num (q : ℚ)
  | str (s : String)
  | arr (xs : List Json)
  | obj (fields : List (String × Json))

/-- Python dict lookup on the association list of an object. -/
def jsonLookup : List (String × Json) → String → Option Json
  | [], _ => none
  | (k, v) :: rest, key => if k = key then some v else jsonLookup rest key

/-- The Python exceptions the embedded fragments can raise. -/
inductive PyError where
  | fileNotFound
  | jsonDecodeError
  | keyError
  | typeError
  | valueError
deriving DecidableEq

/-- `float(x)` on a JSON value.  Booleans succeed because Python `bool`
subclasses `int` (`float(True) = 1.0`). -/
def pyFloatOfJson : Json → Except PyError PyFloat
  | .intNum z => .ok (.finite (z : ℚ))
  | .num q => .ok (.finite q)
  | .bool b => .ok (.finite (if b then 1 else 0))
  | .str s => if pyFloatAccepts s then .ok (pyFloatValue s) else .error .valueError
  | _ => .error .typeError

/-- `int(x)` on a JSON value: ints pass through, floats truncate, strings
must be an optionally signed digit group. -/
def pyIntOfJson : Json → Except PyError ℤ
  | .intNum z => .ok z
  | .num q => .ok (pyInt q)
  | .bool b => .ok (if b then 1 else 0)
  | .str s =>
    let l := stripSign (pyStrip s).data
    let neg : Bool := match (pyStrip s).data with | '-' :: _ => true | _ => false
    if duOk l then .ok (if neg then -(digitsVal (stripUnd l) : ℤ) else (digitsVal (stripUnd l) : ℤ))
    else .error .valueError
  | _ => .error .typeError

/-- Environment of one prober invocation. -/
structure ProbeEnv where
  ffprobe_present : Bool
  returncode : ℤ
  stdout : Option Json

/-- `get_duration` from services/ffmpeg_service.py: run the prober
(raising `FileNotFoundError` when absent), `json.loads` its stdout, and
return `float(data["format"]["duration"])`.  Note the exit status of the
prober is never consulted. -/
def get_duration (env : ProbeEnv) : Except PyError PyFloat :=
  if env.ffprobe_present = false then .error .fileNotFound
  else
    match env.stdout with
    | none => .error .jsonDecodeError
    | some data =>
      match data with
      | .obj fields =>
        match jsonLookup fields "format" with
        | none => .error .keyError
        | some fmt =>
          match fmt with
          | .obj ffields =>
            match jsonLookup ffields "duration" with
            | none => .error .keyError
            | some d => pyFloatOfJson d
          | _ => .error .typeError
      | _ => .error .typeError

/-- Is an `Except` a success? -/
def isOkB {ε α : Type} : Except ε α → Bool
  | .ok _ => true
  | .error _ => false

/-! ### The `info` command (commands/info.py)

Modelled as a function from the invocation environment to the process exit
code.  `raise typer.Exit()` exits with code 0, `raise typer.Exit(code=1)`
with code 1, and an uncaught Python exception makes the process exit 1. -/

/-- Environment of one `info` invocation. -/
structure InfoEnv where
  input_exists : Bool
  probe_returncode : ℤ
  probe_stdout : Option Json
  json_flag : Bool

/-- Exit code of rendering the non-JSON report from parsed probe output:
`int(format_info.get("size", 0))` and `float(format_info.get("duration",
0))` may raise (exit 1); the per-stream loop only calls `.get` on each
stream dict. -/
def infoRenderExit (data : Json) : ℕ :=
  match data with
  | .obj fields =>
    let format_info := (jsonLookup fields "format").getD (.obj [])
    let streams := (jsonLookup fields "streams").getD (.arr [])
    match format_info with
    | .obj ffields =>
      if isOkB (pyIntOfJson ((jsonLookup ffields "size").getD (.intNum 0))) then
        if isOkB (pyFloatOfJson ((jsonLookup ffields "duration").getD (.intNum 0))) then
          match streams with
          | .arr xs => if xs.all (fun s => match s with | .obj _ => true | _ => false) then 0 else 1
          | .str s => if s = "" then 0 else 1
          | .obj sfs => if sfs.isEmpty then 0 else 1
          | _ => 1
        else 1
      else 1
    | _ => 1
  | _ => 1

/-- The `info` command of commands/info.py, as the process exit code of
one invocation.  The missing-input branch executes `raise typer.Exit()`,
whose default exit code is 0. -/
def info (env : InfoEnv) : ℕ :=
  if env.input_exists = false then 0
  else if env.probe_returncode ≠ 0 then 1
  else if env.json_flag then
    match env.probe_stdout with
    | none => 1
    | some _ => 0
  else
    match env.probe_stdout with
    | none => 1
    | some data => infoRenderExit data

/-! ### CLI registration (cli.py) -/

/-- The command functions defined in the repository. -/
inductive CommandImpl where
  | compressCmd
  | infoCmd
  | trimCmd
deriving DecidableEq

/-- The subcommands cli.py registers on the typer app: `compress` and
`info` only.  (cli.py imports `compress` twice and never imports or
registers `trim`.) -/
def app_registered_commands : List (String × CommandImpl) :=
  [("compress", .compressCmd), ("info", .infoCmd)]

/-! ## Theorems for the specification claims -/

/-- C1: for every target size `target_mb > 0` and probed `duration > 0`,
`build_target_plan` computes the plan's video bitrate as
`max(floor(target_mb*8*1024*1024/duration*0.95) - 128000, 100000)`, the
audio bitrate is fixed at 128000 bits/sec, and the video bitrate is always
at least 100000. -/
theorem C1_target_bitrate (fs : List String) (input preset : String) (force : Bool)
    (target_mb duration : ℚ) (htm : 0 < target_mb) (hd : 0 < duration) :
    (build_target_plan fs input target_mb preset force duration).video_bitrate
        = some (max (⌊target_mb * 8 * 1024 * 1024 / duration * (0.95 : ℚ)⌋ - 128000) 100000)
      ∧ (build_target_plan fs input target_mb preset force duration).audio_bitrate = some 128000
      ∧ ∀ v, (build_target_plan fs input target_mb preset force duration).video_bitrate = some v →
          100000 ≤ v := by
  have h0 : (0:ℚ) ≤ target_mb * 8 * 1024 * 1024 / duration * (0.95 : ℚ) := by positivity
  refine ⟨?_, rfl, ?_⟩
  · simp only [build_target_plan, pyInt, if_pos h0]
  · intro v hv
    simp only [build_target_plan, Option.some.injEq] at hv
    rw [← hv]
    exact le_max_right _ _

/-- Witness for C1 at `target_mb = 8`, `duration = 300`. -/
theorem C1_target_bitrate_witness :
    (0:ℚ) < 8 ∧ (0:ℚ) < 300 ∧
      ((build_target_plan [] "movie.mp4" 8 "slow" false 300).video_bitrate
          = some (max (⌊(8:ℚ) * 8 * 1024 * 1024 / 300 * (0.95 : ℚ)⌋ - 128000) 100000)
        ∧ (build_target_plan [] "movie.mp4" 8 "slow" false 300).audio_bitrate = some 128000
        ∧ ∀ v, (build_target_plan [] "movie.mp4" 8 "slow" false 300).video_bitrate = some v →
            100000 ≤ v) :=
  ⟨by decide, by decide,
    C1_target_bitrate [] "movie.mp4" "slow" false 8 300 (by decide) (by decide)⟩

/-- C2 (refuting evaluation): `info` invoked on a missing input file
executes `raise typer.Exit()` in info.py, whose default exit code is 0 —
not the non-zero exit code the claim requires for every detected error. -/
theorem C2_info_missing_input_exits_zero (rc : ℤ) (stdout : Option Json) (jf : Bool) :
    info ⟨false, rc, stdout, jf⟩ = 0 := rfl

/-- C3 (refuting evaluation): cli.py registers only the `compress` and
`info` subcommands; the name `trim` is not registered, so it cannot
dispatch to the `trim` command function of trim.py. -/
theorem C3_trim_not_registered :
    app_registered_commands.map Prod.fst = ["compress", "info"]
      ∧ "trim" ∉ app_registered_commands.map Prod.fst := by decide

/-- C5: `build_trim_plan` produces exactly the argument vector
`["ffmpeg"] ++ (if force then ["-y"] else []) ++ ["-ss", start, "-to",
end, "-i", input, "-c", "copy", "-movflags", "+faststart", output]` —
both seek flags precede `-i`, and `-c copy` selects stream-copy mode. -/
theorem C5_trim_command (fs : List String) (input start endLabel : String)
    (force : Bool) (duration : ℚ) :
    (build_trim_plan fs input start endLabel force duration).command
      = ["ffmpeg"] ++ (if force then ["-y"] else [])
          ++ ["-ss", start, "-to", endLabel, "-i", input, "-c", "copy",
              "-movflags", "+faststart",
              (build_trim_plan fs input start endLabel force duration).output_file] := by
  cases force <;> rfl

/-- The mode-dependent field pattern of the spec's CompressionPlan
invariant: exactly one of {target size, quality value} is set, matching
`mode`. -/
def planModeInvariant (p : CompressionPlan) : Prop :=
  (p.mode = "target" ∧ p.target_mb.isSome = true ∧ p.video_bitrate.isSome = true
      ∧ p.audio_bitrate.isSome = true ∧ p.crf = none)
    ∨ (p.mode = "crf" ∧ p.target_mb = none ∧ p.video_bitrate = none
      ∧ p.audio_bitrate = none ∧ p.crf.isSome = true)

/-- The command vector of a built plan, as a function of the plan's
non-command fields together with the `force` flag passed to the builder. -/
def commandFromFields (force : Bool) (p : CompressionPlan) : List String :=
  ["ffmpeg"] ++ (if force then ["-y"] else []) ++ ["-i", p.input_file]
    ++ (if p.mode = "target" then
          ["-b:v"] ++ (p.video_bitrate.map toString).toList
            ++ ["-b:a"] ++ (p.audio_bitrate.map toString).toList
        else ["-crf"] ++ (p.crf.map toString).toList)
    ++ ["-preset", p.preset, "-movflags", "+faststart", p.output_file]

/-- C9 (amended): every plan built by `build_target_plan` or
`build_crf_plan` has exactly one of {target size, quality value} set,
matching `mode`, and its command vector is a function of the other plan
fields together with the `force` flag passed to the builder (the `-y`
flag is not recoverable from the plan fields alone). -/
theorem C9_plan_invariant (fs : List String) (input preset : String) (force : Bool)
    (target_mb dur : ℚ) (crf : ℤ) :
    (planModeInvariant (build_target_plan fs input target_mb preset force dur)
      ∧ (build_target_plan fs input target_mb preset force dur).command
          = commandFromFields force (build_target_plan fs input target_mb preset force dur))
    ∧ (planModeInvariant (build_crf_plan fs input crf preset force dur)
      ∧ (build_crf_plan fs input crf preset force dur).command
          = commandFromFields force (build_crf_plan fs input crf preset force dur)) := by
  refine ⟨⟨Or.inl ⟨rfl, rfl, rfl, rfl, rfl⟩, ?_⟩, ⟨Or.inr ⟨rfl, rfl, rfl, rfl, rfl⟩, ?_⟩⟩
  · cases force <;> rfl
  · cases force <;> rfl

/-- C9 (counterexample to the claim as stated): two plans built with the
same inputs except for the force flag agree on every non-command field
but have different command vectors, so the command is not a function of
the other plan fields alone. -/
theorem C9_command_not_determined_by_fields :
    ((build_target_plan [] "a.mp4" 8 "slow" true 10).input_file
        = (build_target_plan [] "a.mp4" 8 "slow" false 10).input_file
      ∧ (build_target_plan [] "a.mp4" 8 "slow" true 10).output_file
        = (build_target_plan [] "a.mp4" 8 "slow" false 10).output_file
      ∧ (build_target_plan [] "a.mp4" 8 "slow" true 10).duration
        = (build_target_plan [] "a.mp4" 8 "slow" false 10).duration
      ∧ (build_target_plan [] "a.mp4" 8 "slow" true 10).mode
        = (build_target_plan [] "a.mp4" 8 "slow" false 10).mode
      ∧ (build_target_plan [] "a.mp4" 8 "slow" true 10).target_mb
        = (build_target_plan [] "a.mp4" 8 "slow" false 10).target_mb
      ∧ (build_target_plan [] "a.mp4" 8 "slow" true 10).video_bitrate
        = (build_target_plan [] "a.mp4" 8 "slow" false 10).video_bitrate
      ∧ (build_target_plan [] "a.mp4" 8 "slow" true 10).audio_bitrate
        = (build_target_plan [] "a.mp4" 8 "slow" false 10).audio_bitrate
      ∧ (build_target_plan [] "a.mp4" 8 "slow" true 10).crf
        = (build_target_plan [] "a.mp4" 8 "slow" false 10).crf
      ∧ (build_target_plan [] "a.mp4" 8 "slow" true 10).preset
        = (build_target_plan [] "a.mp4" 8 "slow" false 10).preset)
    ∧ (build_target_plan [] "a.mp4" 8 "slow" true 10).command
        ≠ (build_target_plan [] "a.mp4" 8 "slow" false 10).command := by
  refine ⟨⟨rfl, by decide, rfl, rfl, rfl, rfl, rfl, rfl, rfl⟩, ?_⟩
  intro h
  have hlen := congrArg List.length h
  simp only [build_target_plan] at hlen
  exact absurd hlen (by decide)

/-- The environment refuting C6: the prober is present, exits with status
1, yet prints JSON containing a float-parsable `format.duration`. -/
def c6ProbeEnv : ProbeEnv :=
  ⟨true, 1, some (.obj [("format", .obj [("duration", .str "3.5")])])⟩

/-- C6 (counterexample to the claim as stated): `get_duration` succeeds
although the prober exited non-zero, because the exit status is never
consulted. -/
theorem C6_nonzero_exit_can_succeed :
    c6ProbeEnv.returncode ≠ 0 ∧ isOkB (get_duration c6ProbeEnv) = true :=
  ⟨by decide, by decide⟩

/-- C6 (amended): `get_duration` succeeds exactly when the prober is
present and its stdout is valid JSON whose top level is an object with a
`format` object carrying a `duration` value that `float()` accepts — so
it fails whenever the prober is absent, the stdout is not valid JSON or
not an object, `format` is missing or not an object, or `duration` is
missing or not convertible to float.  The exit status is never consulted:
the result is independent of it. -/
theorem C6_duration_failure_modes (env : ProbeEnv) :
    (isOkB (get_duration env) = true ↔
      (env.ffprobe_present = true ∧ ∃ fields ffields d,
        env.stdout = some (.obj fields)
        ∧ jsonLookup fields "format" = some (.obj ffields)
        ∧ jsonLookup ffields "duration" = some d
        ∧ isOkB (pyFloatOfJson d) = true))
    ∧ (∀ rc : ℤ, get_duration env = get_duration ⟨env.ffprobe_present, rc, env.stdout⟩) := by
  obtain ⟨p, rc, so⟩ := env
  refine ⟨⟨?_, ?_⟩, fun rc2 => rfl⟩
  · intro hok
    cases p with
    | false => simp [get_duration, isOkB] at hok
    | true =>
      cases so with
      | none => simp [get_duration, isOkB] at hok
      | some data =>
        cases data with
        | obj fields =>
          cases e1 : jsonLookup fields "format" with
          | none => simp [get_duration, isOkB, e1] at hok
          | some fmt =>
            cases fmt with
            | obj ffields =>
              cases e2 : jsonLookup ffields "duration" with
              | none => simp [get_duration, isOkB, e1, e2] at hok
              | some d =>
                have he : get_duration ⟨true, rc, some (.obj fields)⟩ = pyFloatOfJson d := by
                  simp [get_duration, e1, e2]
                rw [he] at hok
                exact ⟨rfl, fields, ffields, d, rfl, e1, e2, hok⟩
            | null => simp [get_duration, isOkB, e1] at hok
            | bool b => simp [get_duration, isOkB, e1] at hok
            | intNum z => simp [get_duration, isOkB, e1] at hok
            | num q => simp [get_duration, isOkB, e1] at hok
            | str s2 => simp [get_duration, isOkB, e1] at hok
            | arr xs => simp [get_duration, isOkB, e1] at hok
        | null => simp [get_duration, isOkB] at hok
        | bool b => simp [get_duration, isOkB] at hok
        | intNum z => simp [get_duration, isOkB] at hok
        | num q => simp [get_duration, isOkB] at hok
        | str s2 => simp [get_duration, isOkB] at hok
        | arr xs => simp [get_duration, isOkB] at hok
  · rintro ⟨hp, fields, ffields, d, hso, h1, h2, hok⟩
    simp only at hp hso
    subst hp
    subst hso
    have he : get_duration ⟨true, rc, some (.obj fields)⟩ = pyFloatOfJson d := by
      simp [get_duration, h1, h2]
    rw [he]
    exact hok

/-- Witness for C6_duration_failure_modes: the success characterization
applied at a concrete well-formed probe environment, and the failure of
an absent prober. -/
theorem C6_duration_failure_modes_witness :
    isOkB (get_duration ⟨true, 0, some (.obj [("format",
        .obj [("duration", .str "3.5")])])⟩) = true
      ∧ isOkB (get_duration ⟨false, 0, none⟩) = false :=
  ⟨(C6_duration_failure_modes ⟨true, 0, some (.obj [("format",
        .obj [("duration", .str "3.5")])])⟩).1.mpr
      ⟨rfl, [("format", .obj [("duration", .str "3.5")])],
        [("duration", .str "3.5")], .str "3.5", rfl, rfl, rfl, by decide⟩,
   by
    have h := (C6_duration_failure_modes ⟨false, 0, none⟩).1
    cases hv : isOkB (get_duration ⟨false, 0, none⟩) with
    | false => rfl
    | true =>
      obtain ⟨hp, _⟩ := h.mp hv
      exact absurd hp (by decide)⟩

/-! ### Character-class lemmas for the `float()` grammar -/

/-- The head of a `dropWhile` result falsifies the predicate. -/
theorem dropWhile_head_false {p : Char → Bool} {l : List Char} {x : Char} {xs : List Char}
    (h : l.dropWhile p = x :: xs) : p x = false := by
  induction l with
  | nil => simp at h
  | cons c r ih =>
    by_cases hc : p c = true
    · rw [List.dropWhile_cons_of_pos hc] at h
      exact ih h
    · rw [List.dropWhile_cons_of_neg hc] at h
      cases h
      exact Bool.not_eq_true _ |>.mp hc

theorem mem_stripSign {c : Char} {l : List Char} (h : c ∈ l) :
    c ∈ stripSign l ∨ c = '+' ∨ c = '-' := by
  match l with
  | [] => exact absurd h (List.not_mem_nil c)
  | c2 :: r =>
    have e : stripSign (c2 :: r) = if c2 = '+' || c2 = '-' then r else c2 :: r := rfl
    by_cases hs : (c2 = '+' || c2 = '-') = true
    · rcases List.mem_cons.mp h with rfl | h3
      · rcases (Bool.or_eq_true _ _).mp hs with h4 | h4
        · exact Or.inr (Or.inl (by simpa using h4))
        · exact Or.inr (Or.inr (by simpa using h4))
      · rw [e, if_pos hs]
        exact Or.inl h3
    · rw [e, if_neg hs]
      exact Or.inl h

theorem duTail_mem {l : List Char} (h : duTail l = true) {c : Char} (hc : c ∈ l) :
    c.isDigit = true ∨ c = '_' := by
  induction l using duTail.induct with
  | case1 => exact absurd hc (List.not_mem_nil c)
  | case2 => exact absurd h (by decide)
  | case3 d r2 ih =>
    have e : duTail ('_' :: d :: r2) = (d.isDigit && duTail r2) := rfl
    rw [e, Bool.and_eq_true] at h
    rcases List.mem_cons.mp hc with rfl | hc2
    · exact Or.inr rfl
    · rcases List.mem_cons.mp hc2 with rfl | hc3
      · exact Or.inl h.1
      · exact ih h.2 hc3
  | case4 d r2 hne ih =>
    have e : duTail (d :: r2) = (d.isDigit && duTail r2) := by
      rw [duTail.eq_def]
      dsimp only
      rw [if_neg hne]
    rw [e, Bool.and_eq_true] at h
    rcases List.mem_cons.mp hc with rfl | hc2
    · exact Or.inl h.1
    · exact ih h.2 hc2

theorem duOk_mem {l : List Char} (h : duOk l = true) {c : Char} (hc : c ∈ l) :
    c.isDigit = true ∨ c = '_' := by
  match l with
  | [] => exact absurd hc (List.not_mem_nil c)
  | c2 :: r =>
    rw [duOk, Bool.and_eq_true] at h
    rcases List.mem_cons.mp hc with rfl | hc2
    · exact Or.inl h.1
    · exact duTail_mem h.2 hc2

theorem mantissaOk_mem {l : List Char} (h : mantissaOk l = true) {c : Char} (hc : c ∈ l) :
    c.isDigit = true ∨ c = '_' ∨ c = '.' := by
  simp only [mantissaOk] at h
  have hsplit := List.takeWhile_append_dropWhile (p := fun c => c ≠ '.') (l := l)
  rw [← hsplit] at hc
  rcases List.mem_append.mp hc with hip | hrest
  · cases hd : l.dropWhile (fun c => c ≠ '.') with
    | nil =>
      rw [hd] at h
      rcases duOk_mem h hip with h1 | h1
      · exact Or.inl h1
      · exact Or.inr (Or.inl h1)
    | cons r0 fp =>
      rw [hd] at h
      rcases (Bool.or_eq_true _ _).mp h with h1 | h1
      · rw [Bool.and_eq_true] at h1
        rcases duOk_mem h1.1 hip with h2 | h2
        · exact Or.inl h2
        · exact Or.inr (Or.inl h2)
      · rw [Bool.and_eq_true] at h1
        have hipE := h1.1
        rw [List.isEmpty_iff.mp hipE] at hip
        exact absurd hip (List.not_mem_nil c)
  · cases hd : l.dropWhile (fun c => c ≠ '.') with
    | nil =>
      rw [hd] at hrest
      exact absurd hrest (List.not_mem_nil c)
    | cons r0 fp =>
      have hr0 : r0 = '.' := by
        have := dropWhile_head_false hd
        simpa using this
      rw [hd] at hrest h
      rcases List.mem_cons.mp hrest with rfl | hfp
      · exact Or.inr (Or.inr hr0)
      · rcases (Bool.or_eq_true _ _).mp h with h1 | h1
        · rw [Bool.and_eq_true] at h1
          have hfp' := h1.2
          rcases (Bool.or_eq_true _ _).mp hfp' with h2 | h2
          · rw [List.isEmpty_iff.mp h2] at hfp
            exact absurd hfp (List.not_mem_nil c)
          · rcases duOk_mem h2 hfp with h3 | h3
            · exact Or.inl h3
            · exact Or.inr (Or.inl h3)
        · rw [Bool.and_eq_true] at h1
          rcases duOk_mem h1.2 hfp with h3 | h3
          · exact Or.inl h3
          · exact Or.inr (Or.inl h3)

theorem pyFloatCore_mem {l : List Char} (h : pyFloatCore l = true) {c : Char} (hc : c ∈ l) :
    c.isDigit = true ∨ c = '_' ∨ c = '.' ∨ c = 'e' ∨ c = 'E' ∨ c = '+' ∨ c = '-' := by
  simp only [pyFloatCore] at h
  have hsplit := List.takeWhile_append_dropWhile (p := fun c => c ≠ 'e' && c ≠ 'E') (l := l)
  rw [← hsplit] at hc
  rcases List.mem_append.mp hc with hm | hrest
  · cases hd : l.dropWhile (fun c => c ≠ 'e' && c ≠ 'E') with
    | nil =>
      rw [hd] at h
      rcases mantissaOk_mem h hm with h1 | h1 | h1
      · exact Or.inl h1
      · exact Or.inr (Or.inl h1)
      · exact Or.inr (Or.inr (Or.inl h1))
    | cons r0 ep =>
      rw [hd, Bool.and_eq_true] at h
      rcases mantissaOk_mem h.1 hm with h1 | h1 | h1
      · exact Or.inl h1
      · exact Or.inr (Or.inl h1)
      · exact Or.inr (Or.inr (Or.inl h1))
  · cases hd : l.dropWhile (fun c => c ≠ 'e' && c ≠ 'E') with
    | nil =>
      rw [hd] at hrest
      exact absurd hrest (List.not_mem_nil c)
    | cons r0 ep =>
      have hr0 : r0 = 'e' ∨ r0 = 'E' := by
        have := dropWhile_head_false hd
        rcases Bool.and_eq_false_iff.mp this with h1 | h1
        · exact Or.inl (by simpa using h1)
        · exact Or.inr (by simpa using h1)
      rw [hd, Bool.and_eq_true] at h
      rw [hd] at hrest
      rcases List.mem_cons.mp hrest with rfl | hep
      · rcases hr0 with rfl | rfl
        · exact Or.inr (Or.inr (Or.inr (Or.inl rfl)))
        · exact Or.inr (Or.inr (Or.inr (Or.inr (Or.inl rfl))))
      · rcases mem_stripSign hep with h1 | h1 | h1
        · rcases duOk_mem h.2 h1 with h2 | h2
          · exact Or.inl h2
          · exact Or.inr (Or.inl h2)
        · exact Or.inr (Or.inr (Or.inr (Or.inr (Or.inr (Or.inl h1)))))
        · exact Or.inr (Or.inr (Or.inr (Or.inr (Or.inr (Or.inr h1)))))

/-- A string whose stripped value contains a colon is never accepted by
`float()`. -/
theorem pyFloatAccepts_colon {s : String} (h : ':' ∈ (pyStrip s).data) :
    pyFloatAccepts s = false := by
  cases hacc : pyFloatAccepts s with
  | false => rfl
  | true =>
    exfalso
    have hl : ':' ∈ stripSign (pyStrip s).data := by
      rcases mem_stripSign h with h1 | h1 | h1
      · exact h1
      · exact absurd h1 (by decide)
      · exact absurd h1 (by decide)
    simp only [pyFloatAccepts] at hacc
    split at hacc
    · rename_i hlow
      have hmem : ':' ∈ (stripSign (pyStrip s).data).map Char.toLower := by
        have : (':').toLower = ':' := rfl
        rw [← this]
        exact List.mem_map_of_mem Char.toLower hl
      rcases (Bool.or_eq_true _ _).mp hlow with h2 | h2
      · rcases (Bool.or_eq_true _ _).mp h2 with h3 | h3
        · rw [of_decide_eq_true h3] at hmem
          exact absurd hmem (by decide)
        · rw [of_decide_eq_true h3] at hmem
          exact absurd hmem (by decide)
      · rw [of_decide_eq_true h2] at hmem
        exact absurd hmem (by decide)
    · rcases pyFloatCore_mem hacc hl with h1 | h1 | h1 | h1 | h1 | h1 | h1 <;>
        first
        | exact absurd h1 (by decide)

/-- C7: `normalize_time_label` trims whitespace and fails with
`InvalidTime` on the empty string; any input whose trimmed value parses
as a decimal number is returned trimmed and unchanged (for example
`"12.5"`); and any trimmed non-numeric input lacking a colon (for
example `"abc"`) fails with `InvalidTime`. -/
theorem C7_normalize_time_label (t : String) :
    (pyStrip t = "" → normalize_time_label t = .error .invalidTime)
    ∧ (pyFloatAccepts (pyStrip t) = true → normalize_time_label t = .ok (pyStrip t))
    ∧ (pyStrip t ≠ "" → pyFloatAccepts (pyStrip t) = false → ':' ∉ (pyStrip t).data →
        normalize_time_label t = .error .invalidTime)
    ∧ normalize_time_label "12.5" = .ok "12.5"
    ∧ normalize_time_label "abc" = .error .invalidTime := by
  refine ⟨?_, ?_, ?_, rfl, rfl⟩
  · intro h0
    simp only [normalize_time_label, h0]
    rfl
  · intro hacc
    have h0 : pyStrip t ≠ "" := by
      intro h0
      rw [h0] at hacc
      exact absurd hacc (by decide)
    simp only [normalize_time_label, if_neg h0, hacc, if_pos]
  · intro h0 hacc hcolon
    simp only [normalize_time_label, if_neg h0, hacc, Bool.false_eq_true, if_false,
      if_neg hcolon]

/-- Witness for C7 at `" 12.5 "`. -/
theorem C7_normalize_time_label_witness :
    normalize_time_label " 12.5 " = .ok "12.5" :=
  (C7_normalize_time_label " 12.5 ").2.1 (by decide)

/-- C10: every non-empty trimmed string containing at least one colon is
returned unchanged by `normalize_time_label`, regardless of content. -/
theorem C10_colon_strings_accepted (t : String) (h1 : pyStrip t = t) (h2 : t ≠ "")
    (h3 : ':' ∈ t.data) :
    normalize_time_label t = .ok t := by
  have hacc : pyFloatAccepts t = false := by
    have := pyFloatAccepts_colon (s := t) (by rw [h1]; exact h3)
    exact this
  simp only [normalize_time_label, h1, if_neg h2, hacc, Bool.false_eq_true, if_false,
    if_pos h3]

/-- Witness for C10 at `":"`, `"a:b"` and `"::::"`. -/
theorem C10_colon_strings_accepted_witness :
    normalize_time_label ":" = .ok ":"
      ∧ normalize_time_label "a:b" = .ok "a:b"
      ∧ normalize_time_label "::::" = .ok "::::" :=
  ⟨C10_colon_strings_accepted ":" (by decide) (by decide) (by decide),
   C10_colon_strings_accepted "a:b" (by decide) (by decide) (by decide),
   C10_colon_strings_accepted "::::" (by decide) (by decide) (by decide)⟩

/-! ### Correctness of the decimal rendering and the candidate names -/

theorem digitChar_toNat {d : ℕ} (h : d < 10) : (Nat.digitChar d).toNat - 48 = d := by
  interval_cases d <;> rfl

theorem digitsVal_append (l : List Char) (c : Char) :
    digitsVal (l ++ [c]) = 10 * digitsVal l + (c.toNat - 48) := by
  simp [digitsVal, List.foldl_append]

theorem digitsVal_natDecimalAux : ∀ (fuel n : ℕ), n < 10 ^ fuel →
    digitsVal (natDecimalAux fuel n) = n := by
  intro fuel
  induction fuel with
  | zero =>
    intro n hn
    interval_cases n
    rfl
  | succ f ih =>
    intro n hn
    by_cases h10 : n < 10
    · rw [natDecimalAux, if_pos h10]
      have := digitChar_toNat h10
      simp [digitsVal, this]
    · rw [natDecimalAux, if_neg h10, digitsVal_append,
        ih (n / 10) (by omega), digitChar_toNat (Nat.mod_lt n (by norm_num))]
      omega

theorem digitsVal_natDecimal (n : ℕ) : digitsVal (natDecimal n) = n := by
  have h1 : n < 10 ^ n := Nat.lt_pow_self (by norm_num) n
  have h2 : (10:ℕ) ^ n ≤ 10 ^ (n + 1) := Nat.pow_le_pow_right (by norm_num) (Nat.le_succ n)
  exact digitsVal_natDecimalAux (n + 1) n (lt_of_lt_of_le h1 h2)

theorem natDecimal_injective : Function.Injective natDecimal := by
  intro a b h
  have := congrArg digitsVal h
  rwa [digitsVal_natDecimal, digitsVal_natDecimal] at this

theorem natDecimal_ne_nil (n : ℕ) : natDecimal n ≠ [] := by
  rw [natDecimal, natDecimalAux]
  by_cases h10 : n < 10
  · rw [if_pos h10]
    simp
  · rw [if_neg h10]
    simp

theorem candidate_data (name ext : String) (i : ℕ) :
    (candidate name ext i).data = ((name.data ++ ['_']) ++ natDecimal i) ++ ext.data := by
  simp [candidate, natDecimalStr, String.data_append]

theorem candidate_inj {name ext : String} {i j : ℕ}
    (h : candidate name ext i = candidate name ext j) : i = j := by
  have hd := congrArg String.data h
  rw [candidate_data, candidate_data] at hd
  exact natDecimal_injective (List.append_cancel_left (List.append_cancel_right hd))

theorem candidate_length (name ext : String) (i : ℕ) :
    (candidate name ext i).data.length
      = name.data.length + 1 + (natDecimal i).length + ext.data.length := by
  rw [candidate_data]
  simp
  omega

/-- The two halves of `splitextData` concatenate back to the input. -/
theorem splitextData_append (l : List Char) :
    (splitextData l).1 ++ (splitextData l).2 = l := by
  unfold splitextData
  split
  · simp
  · dsimp only
    split
    · simp
    · split
      · exact List.take_append_drop _ l
      · simp

theorem splitext_append (p : String) :
    (splitext p).1.data ++ (splitext p).2.data = p.data :=
  splitextData_append p.data

/-- A numbered candidate is strictly longer than the base path it was
split from, hence never equal to it. -/
theorem candidate_ne_base {p : String} (i : ℕ) :
    candidate (splitext p).1 (splitext p).2 i ≠ p := by
  intro h
  have hlen := congrArg (fun s => s.data.length) h
  simp only [candidate_length] at hlen
  have hbase : (splitext p).1.data.length + (splitext p).2.data.length = p.data.length := by
    have := congrArg List.length (splitext_append p)
    simpa using this
  have hnd : 1 ≤ (natDecimal i).length :=
    List.length_pos.mpr (natDecimal_ne_nil i)
  omega

/-! ### Pigeonhole and loop lemmas for the output-name resolver -/

/-- Among the first `fs.length + 1` numbered candidates there is one that
does not exist: they are pairwise distinct, and `fs` is finite. -/
theorem exists_free_candidate (fs : List String) (name ext : String) :
    ∃ j, j ≤ fs.length ∧ candidate name ext (j + 1) ∉ fs := by
  by_contra hcon
  push_neg at hcon
  have hinj : Function.Injective (fun j : ℕ => candidate name ext (j + 1)) := by
    intro a b h
    have := candidate_inj h
    omega
  have hsub : (Finset.range (fs.length + 1)).image (fun j => candidate name ext (j + 1))
      ⊆ fs.toFinset := by
    intro x hx
    rcases Finset.mem_image.mp hx with ⟨j, hj, rfl⟩
    exact List.mem_toFinset.mpr (hcon j (Nat.lt_succ_iff.mp (Finset.mem_range.mp hj)))
  have hcard := Finset.card_le_card hsub
  rw [Finset.card_image_of_injective _ hinj, Finset.card_range] at hcard
  have := fs.toFinset_card_le
  omega

/-- Whatever the search loop returns does not exist. -/
theorem resolveLoop_not_mem {fs : List String} {name ext : String} :
    ∀ {fuel counter : ℕ} {s : String},
      resolveLoop fs name ext fuel counter = some s → s ∉ fs := by
  intro fuel
  induction fuel with
  | zero =>
    intro c s h
    simp [resolveLoop] at h
  | succ f ih =>
    intro c s h
    rw [resolveLoop] at h
    split at h
    · exact ih h
    · rename_i hnot
      cases h
      exact hnot

/-- If the candidates below `counter + j` all exist and `counter + j` is
free, the loop returns candidate `counter + j` (given enough fuel). -/
theorem resolveLoop_first_free {fs : List String} {name ext : String} :
    ∀ (j counter fuel : ℕ), j < fuel →
      (∀ i, i < j → candidate name ext (counter + i) ∈ fs) →
      candidate name ext (counter + j) ∉ fs →
      resolveLoop fs name ext fuel counter = some (candidate name ext (counter + j)) := by
  intro j
  induction j with
  | zero =>
    intro c fuel hfuel hall hfree
    rw [Nat.add_zero] at hfree ⊢
    match fuel, hfuel with
    | f + 1, _ =>
      rw [resolveLoop, if_neg hfree]
  | succ j ih =>
    intro c fuel hfuel hall hfree
    match fuel, hfuel with
    | f + 1, hfuel =>
      have hc : candidate name ext c ∈ fs := by
        have := hall 0 (by omega)
        rwa [Nat.add_zero] at this
      rw [resolveLoop, if_pos hc]
      have harg : c + 1 + j = c + (j + 1) := by omega
      rw [← harg] at hfree ⊢
      exact ih (c + 1) f (by omega)
        (fun i hi => by
          have := hall (i + 1) (by omega)
          rwa [show c + (i + 1) = c + 1 + i by omega] at this)
        hfree

/-- The resolver never returns an existing path. -/
theorem resolve_output_name_not_mem (fs : List String) (p : String) :
    resolve_output_name fs p ∉ fs := by
  rw [resolve_output_name]
  split
  · obtain ⟨j0, hj0le, hj0free⟩ := exists_free_candidate fs (splitext p).1 (splitext p).2
    have hex : ∃ j, candidate (splitext p).1 (splitext p).2 (j + 1) ∉ fs := ⟨j0, hj0free⟩
    have hfree : candidate (splitext p).1 (splitext p).2 (Nat.find hex + 1) ∉ fs :=
      Nat.find_spec hex
    have hmin : ∀ i, i < Nat.find hex →
        candidate (splitext p).1 (splitext p).2 (i + 1) ∈ fs :=
      fun i hi => not_not.mp (Nat.find_min hex hi)
    have hloop := resolveLoop_first_free (Nat.find hex) 1 (fs.length + 1)
      (by have := Nat.find_min' hex hj0free; omega)
      (fun i hi => by
        rw [show 1 + i = i + 1 by omega]
        exact hmin i hi)
      (by
        rw [show 1 + Nat.find hex = Nat.find hex + 1 by omega]
        exact hfree)
    rw [hloop]
    rw [Nat.add_comm 1 (Nat.find hex)]
    simpa using hfree
  · rename_i hnot
    exact hnot

/-- C4: `resolve_output_name(p)` returns `p` itself when `p` does not
exist; when the filesystem holds exactly `{p, p_1, ..., p_k}` (with `p_i`
the stem of `p` suffixed by `_i` before the extension) it returns
`p_{k+1}`; and in every case the returned path does not exist at call
time. -/
theorem C4_resolve_output_name (fs : List String) (p : String) (k : ℕ) :
    (p ∉ fs → resolve_output_name fs p = p)
    ∧ ((∀ s, s ∈ fs ↔ (s = p ∨ ∃ i, 1 ≤ i ∧ i ≤ k
          ∧ s = candidate (splitext p).1 (splitext p).2 i)) →
        resolve_output_name fs p = candidate (splitext p).1 (splitext p).2 (k + 1))
    ∧ resolve_output_name fs p ∉ fs := by
  refine ⟨?_, ?_, resolve_output_name_not_mem fs p⟩
  · intro h
    rw [resolve_output_name, if_neg h]
  · intro hfs
    have hp : p ∈ fs := (hfs p).mpr (Or.inl rfl)
    have hin : ∀ i, i < k → candidate (splitext p).1 (splitext p).2 (1 + i) ∈ fs := by
      intro i hi
      refine (hfs _).mpr (Or.inr ⟨i + 1, by omega, by omega, ?_⟩)
      rw [Nat.add_comm]
    have hout : candidate (splitext p).1 (splitext p).2 (1 + k) ∉ fs := by
      intro hmem
      rcases (hfs _).mp hmem with h | ⟨i, h1, h2, heq⟩
      · exact candidate_ne_base (1 + k) h
      · have := candidate_inj heq
        omega
    have hklen : k ≤ fs.length := by
      classical
      have hinj : Function.Injective
          (fun i : ℕ => candidate (splitext p).1 (splitext p).2 (i + 1)) := by
        intro a b h
        have := candidate_inj h
        omega
      have hpnotin : p ∉ (Finset.range k).image
          (fun i => candidate (splitext p).1 (splitext p).2 (i + 1)) := by
        intro hmem
        rcases Finset.mem_image.mp hmem with ⟨i, _, heq⟩
        exact candidate_ne_base (i + 1) heq
      have hsub : insert p ((Finset.range k).image
          (fun i => candidate (splitext p).1 (splitext p).2 (i + 1))) ⊆ fs.toFinset := by
        intro x hx
        rcases Finset.mem_insert.mp hx with rfl | hx2
        · exact List.mem_toFinset.mpr hp
        · rcases Finset.mem_image.mp hx2 with ⟨i, hi, rfl⟩
          refine List.mem_toFinset.mpr ((hfs _).mpr (Or.inr ⟨i + 1, by omega, ?_, rfl⟩))
          have := Finset.mem_range.mp hi
          omega
      have hcard := Finset.card_le_card hsub
      rw [Finset.card_insert_of_not_mem hpnotin,
        Finset.card_image_of_injective _ hinj, Finset.card_range] at hcard
      have := fs.toFinset_card_le
      omega
    have hloop := @resolveLoop_first_free fs (splitext p).1 (splitext p).2
      k 1 (fs.length + 1) (by omega) hin hout
    rw [resolve_output_name, if_pos hp, hloop]
    rw [show 1 + k = k + 1 by omega]
    rfl

/-- Witness for C4 on the filesystem `{a.mp4, a_1.mp4}` with `p = a.mp4`,
`k = 1`. -/
theorem C4_resolve_output_name_witness :
    resolve_output_name ["a.mp4", "a_1.mp4"] "a.mp4" = "a_2.mp4" := by
  have h := (C4_resolve_output_name ["a.mp4", "a_1.mp4"] "a.mp4" 1).2.1
  have hfs : ∀ s, s ∈ ["a.mp4", "a_1.mp4"] ↔ (s = "a.mp4" ∨ ∃ i, 1 ≤ i ∧ i ≤ 1
      ∧ s = candidate (splitext "a.mp4").1 (splitext "a.mp4").2 i) := by
    intro s
    constructor
    · intro hs
      rcases List.mem_cons.mp hs with rfl | hs2
      · exact Or.inl rfl
      · rcases List.mem_cons.mp hs2 with rfl | hs3
        · exact Or.inr ⟨1, le_refl 1, le_refl 1, by decide⟩
        · exact absurd hs3 (List.not_mem_nil s)
    · intro hs
      rcases hs with rfl | ⟨i, h1, h2, rfl⟩
      · exact List.mem_cons_self _ _
      · have : i = 1 := by omega
        subst this
        have : candidate (splitext "a.mp4").1 (splitext "a.mp4").2 1 = "a_1.mp4" := by decide
        rw [this]
        exact List.mem_cons_of_mem _ (List.mem_cons_self _ _)
  have h2 := h hfs
  rw [h2]
  decide

/-! ### Soundness and completeness of the timestamp scanner -/

/-- A nonempty run of digit characters. -/
def digitsNE (l : List Char) : Prop := l ≠ [] ∧ ∀ c ∈ l, c.isDigit = true

/-- The timestamp decomposition recognised by the regex
`time=(\d+):(\d+):(\d+\.\d+)` starting at some position. -/
def hasTimePattern (cs : List Char) : Prop :=
  ∃ pre h m si sf suf, digitsNE h ∧ digitsNE m ∧ digitsNE si ∧ digitsNE sf ∧
    cs = pre ++ 't' :: 'i' :: 'm' :: 'e' :: '=' ::
      (h ++ ':' :: (m ++ ':' :: (si ++ '.' :: (sf ++ suf))))

theorem takeDigits_append (l : List Char) : (takeDigits l).1 ++ (takeDigits l).2 = l := by
  induction l with
  | nil => rfl
  | cons c r ih =>
    rw [takeDigits]
    by_cases hc : c.isDigit = true
    · rw [if_pos hc]
      dsimp only
      rw [List.cons_append, ih]
    · rw [if_neg hc]
      rfl

theorem takeDigits_fst_digits : ∀ {l : List Char} {c : Char},
    c ∈ (takeDigits l).1 → c.isDigit = true := by
  intro l
  induction l with
  | nil =>
    intro c hc
    simp [takeDigits] at hc
  | cons c0 r ih =>
    intro c hc
    rw [takeDigits] at hc
    by_cases h0 : c0.isDigit = true
    · rw [if_pos h0] at hc
      rcases List.mem_cons.mp hc with rfl | hc2
      · exact h0
      · exact ih hc2
    · rw [if_neg h0] at hc
      simp at hc

theorem takeDigits_on_digit_block {d : List Char} (hd : ∀ c ∈ d, c.isDigit = true)
    {c0 : Char} (hc0 : c0.isDigit = false) (r : List Char) :
    takeDigits (d ++ c0 :: r) = (d, c0 :: r) := by
  induction d with
  | nil =>
    rw [List.nil_append, takeDigits, if_neg (by simp [hc0])]
  | cons a d ih =>
    have ha : a.isDigit = true := hd a (List.mem_cons_self a d)
    rw [List.cons_append, takeDigits, if_pos ha,
      ih (fun c hc => hd c (List.mem_cons_of_mem a hc))]

theorem matchGroup_sound {l d r : List Char} (h : matchGroup l = some (d, r)) :
    l = d ++ r ∧ digitsNE d := by
  rw [matchGroup] at h
  split at h
  · exact absurd h (by simp)
  · rename_i d2 r2 hne heq
    have hd : takeDigits l = (d2, r2) := heq
    cases h
    constructor
    · rw [← takeDigits_append l, hd]
    · refine ⟨?_, ?_⟩
      · intro hnil
        exact hne hnil
      · intro c hc
        exact takeDigits_fst_digits (by rw [hd]; exact hc)

theorem matchGroup_on_digit_block {d : List Char} (hd : digitsNE d) {c0 : Char}
    (hc0 : c0.isDigit = false) (r : List Char) :
    matchGroup (d ++ c0 :: r) = some (d, c0 :: r) := by
  rw [matchGroup, takeDigits_on_digit_block hd.2 hc0 r]
  match d, hd.1 with
  | a :: d2, _ => rfl

theorem matchGroup_isSome_of_head_digit {c : Char} (hc : c.isDigit = true)
    (r : List Char) : ∃ d r2, matchGroup (c :: r) = some (d, r2) := by
  rw [matchGroup, takeDigits, if_pos hc]
  exact ⟨_, _, rfl⟩

theorem expectChar_sound {c : Char} {l r : List Char} (h : expectChar c l = some r) :
    l = c :: r := by
  match l with
  | [] => simp [expectChar] at h
  | x :: r2 =>
    rw [expectChar] at h
    split at h
    · rename_i hx
      cases h
      rw [hx]
    · exact absurd h (by simp)

theorem matchTimeAt_sound {cs : List Char} {g : TimeGroups} (h : matchTimeAt cs = some g) :
    ∃ suf, digitsNE g.h ∧ digitsNE g.m ∧ digitsNE g.si ∧ digitsNE g.sf ∧
      cs = 't' :: 'i' :: 'm' :: 'e' :: '=' ::
        (g.h ++ ':' :: (g.m ++ ':' :: (g.si ++ '.' :: (g.sf ++ suf)))) := by
  rw [matchTimeAt.eq_def] at h
  split at h
  case _ rest =>
    cases e1 : matchGroup rest with
    | none => rw [e1] at h; simp at h
    | some pr1 =>
      obtain ⟨hg, r1⟩ := pr1
      rw [e1] at h
      dsimp only at h
      cases e2 : expectChar ':' r1 with
      | none => rw [e2] at h; simp at h
      | some r2 =>
        rw [e2] at h
        dsimp only at h
        cases e3 : matchGroup r2 with
        | none => rw [e3] at h; simp at h
        | some pr2 =>
          obtain ⟨mg, r3⟩ := pr2
          rw [e3] at h
          dsimp only at h
          cases e4 : expectChar ':' r3 with
          | none => rw [e4] at h; simp at h
          | some r4 =>
            rw [e4] at h
            dsimp only at h
            cases e5 : matchGroup r4 with
            | none => rw [e5] at h; simp at h
            | some pr3 =>
              obtain ⟨sig, r5⟩ := pr3
              rw [e5] at h
              dsimp only at h
              cases e6 : expectChar '.' r5 with
              | none => rw [e6] at h; simp at h
              | some r6 =>
                rw [e6] at h
                dsimp only at h
                cases e7 : matchGroup r6 with
                | none => rw [e7] at h; simp at h
                | some pr4 =>
                  obtain ⟨sfg, r7⟩ := pr4
                  rw [e7] at h
                  dsimp only at h
                  cases h
                  obtain ⟨hrest, hhg⟩ := matchGroup_sound e1
                  have hr1 := expectChar_sound e2
                  obtain ⟨hr2, hmg⟩ := matchGroup_sound e3
                  have hr3 := expectChar_sound e4
                  obtain ⟨hr4, hsig⟩ := matchGroup_sound e5
                  have hr5 := expectChar_sound e6
                  obtain ⟨hr6, hsfg⟩ := matchGroup_sound e7
                  refine ⟨r7, hhg, hmg, hsig, hsfg, ?_⟩
                  rw [hrest, hr1, hr2, hr3, hr4, hr5, hr6]
  case _ =>
    exact absurd h (by simp)

/-- Reduction of the scanner on a `time=` head (stated once so the
completeness proof can rewrite with it). -/
theorem matchTimeAt_time_eq (rest : List Char) :
    matchTimeAt ('t' :: 'i' :: 'm' :: 'e' :: '=' :: rest)
      = (match matchGroup rest with
         | some (hg, r1) =>
           match expectChar ':' r1 with
           | some r2 =>
             match matchGroup r2 with
             | some (mg, r3) =>
               match expectChar ':' r3 with
               | some r4 =>
                 match matchGroup r4 with
                 | some (sig, r5) =>
                   match expectChar '.' r5 with
                   | some r6 =>
                     match matchGroup r6 with
                     | some (sfg, _) => some ⟨hg, mg, sig, sfg⟩
                     | none => none
                   | none => none
                 | none => none
               | none => none
             | none => none
           | none => none
         | none => none) := rfl

theorem matchTimeAt_complete {h m si sf suf : List Char}
    (hh : digitsNE h) (hm : digitsNE m) (hsi : digitsNE si) (hsf : digitsNE sf) :
    (matchTimeAt ('t' :: 'i' :: 'm' :: 'e' :: '=' ::
      (h ++ ':' :: (m ++ ':' :: (si ++ '.' :: (sf ++ suf)))))).isSome = true := by
  rw [matchTimeAt_time_eq]
  rw [matchGroup_on_digit_block hh (by decide)]
  dsimp only
  rw [show expectChar ':' (':' :: (m ++ ':' :: (si ++ '.' :: (sf ++ suf))))
      = some (m ++ ':' :: (si ++ '.' :: (sf ++ suf))) from rfl]
  dsimp only
  rw [matchGroup_on_digit_block hm (by decide)]
  dsimp only
  rw [show expectChar ':' (':' :: (si ++ '.' :: (sf ++ suf)))
      = some (si ++ '.' :: (sf ++ suf)) from rfl]
  dsimp only
  rw [matchGroup_on_digit_block hsi (by decide)]
  dsimp only
  rw [show expectChar '.' ('.' :: (sf ++ suf)) = some (sf ++ suf) from rfl]
  dsimp only
  match sf, hsf.1 with
  | c :: sf2, _ =>
    have hc : c.isDigit = true := hsf.2 c (List.mem_cons_self c sf2)
    obtain ⟨d, r2, he⟩ := matchGroup_isSome_of_head_digit hc (sf2 ++ suf)
    rw [List.cons_append, he]
    rfl

theorem searchTime_sound : ∀ {cs : List Char} {g : TimeGroups}, searchTime cs = some g →
    ∃ pre suf, digitsNE g.h ∧ digitsNE g.m ∧ digitsNE g.si ∧ digitsNE g.sf ∧
      cs = pre ++ 't' :: 'i' :: 'm' :: 'e' :: '=' ::
        (g.h ++ ':' :: (g.m ++ ':' :: (g.si ++ '.' :: (g.sf ++ suf)))) := by
  intro cs
  induction cs with
  | nil =>
    intro g h
    simp [searchTime] at h
  | cons c cs ih =>
    intro g h
    rw [searchTime] at h
    cases e : matchTimeAt (c :: cs) with
    | some g2 =>
      rw [e] at h
      dsimp only at h
      cases h
      obtain ⟨suf, h1, h2, h3, h4, heq⟩ := matchTimeAt_sound e
      exact ⟨[], suf, h1, h2, h3, h4, by rw [List.nil_append, heq]⟩
    | none =>
      rw [e] at h
      dsimp only at h
      obtain ⟨pre, suf, h1, h2, h3, h4, heq⟩ := ih h
      exact ⟨c :: pre, suf, h1, h2, h3, h4, by rw [List.cons_append, heq]⟩

theorem searchTime_complete : ∀ {cs : List Char}, hasTimePattern cs →
    (searchTime cs).isSome = true := by
  intro cs
  induction cs with
  | nil =>
    rintro ⟨pre, h, m, si, sf, suf, h1, h2, h3, h4, heq⟩
    cases pre <;> simp at heq
  | cons c cs ih =>
    rintro ⟨pre, h, m, si, sf, suf, h1, h2, h3, h4, heq⟩
    rw [searchTime]
    cases e : matchTimeAt (c :: cs) with
    | some g => simp
    | none =>
      dsimp only
      apply ih
      cases pre with
      | nil =>
        exfalso
        rw [List.nil_append] at heq
        have hc := @matchTimeAt_complete h m si sf suf h1 h2 h3 h4
        rw [← heq, e] at hc
        simp at hc
      | cons c2 pre2 =>
        rw [List.cons_append] at heq
        injection heq with hc hcs
        exact ⟨pre2, h, m, si, sf, suf, h1, h2, h3, h4, hcs⟩

/-- The sequence of completed values reported during trim execution:
each is clamped to the source duration. -/
theorem trim_updates_mem {dur : ℚ} : ∀ {lines : List String} {u : ℚ},
    u ∈ trim_progress_updates dur lines →
    u ≤ dur ∧ ∃ l ∈ lines, ∃ t, parse_ffmpeg_time_to_seconds l = some t ∧ u = min t dur := by
  intro lines
  induction lines with
  | nil =>
    intro u hu
    simp [trim_progress_updates] at hu
  | cons l ls ih =>
    intro u hu
    rw [trim_progress_updates] at hu
    cases e : parse_ffmpeg_time_to_seconds l with
    | none =>
      rw [e] at hu
      dsimp only at hu
      obtain ⟨hle, l2, hl2, t, ht, hu2⟩ := ih hu
      exact ⟨hle, l2, List.mem_cons_of_mem _ hl2, t, ht, hu2⟩
    | some t =>
      rw [e] at hu
      dsimp only at hu
      rcases List.mem_cons.mp hu with rfl | hu2
      · exact ⟨min_le_right _ _, l, List.mem_cons_self _ _, t, e, rfl⟩
      · obtain ⟨hle, l2, hl2, t2, ht2, hu3⟩ := ih hu2
        exact ⟨hle, l2, List.mem_cons_of_mem _ hl2, t2, ht2, hu3⟩

/-- C8: a diagnostic line produces a progress update exactly when it
contains the pattern `time=<digits>:<digits>:<digits>.<digits>`; the
extracted value is `hours*3600 + minutes*60 + seconds` for the matched
groups; and during trim execution every reported completed value is
clamped to `min(elapsed, source duration)`. -/
theorem C8_progress_time_parsing (line : String) (dur : ℚ) (lines : List String) :
    ((parse_ffmpeg_time_to_seconds line).isSome = true ↔ hasTimePattern line.data)
    ∧ (∀ v, parse_ffmpeg_time_to_seconds line = some v →
        ∃ pre h m si sf suf, digitsNE h ∧ digitsNE m ∧ digitsNE si ∧ digitsNE sf ∧
          line.data = pre ++ 't' :: 'i' :: 'm' :: 'e' :: '=' ::
            (h ++ ':' :: (m ++ ':' :: (si ++ '.' :: (sf ++ suf))))
          ∧ v = (digitsVal h : ℚ) * 3600 + (digitsVal m : ℚ) * 60
              + ((digitsVal si : ℚ) + (digitsVal sf : ℚ) / 10 ^ sf.length))
    ∧ (∀ u ∈ trim_progress_updates dur lines,
        u ≤ dur ∧ ∃ l ∈ lines, ∃ t, parse_ffmpeg_time_to_seconds l = some t ∧ u = min t dur) := by
  refine ⟨?_, ?_, fun u hu => trim_updates_mem hu⟩
  · rw [parse_ffmpeg_time_to_seconds]
    rw [show ∀ o : Option TimeGroups, (o.map groupsToSeconds).isSome = o.isSome from
      fun o => by cases o <;> rfl]
    constructor
    · intro hs
      obtain ⟨g, hg⟩ := Option.isSome_iff_exists.mp hs
      obtain ⟨pre, suf, h1, h2, h3, h4, heq⟩ := searchTime_sound hg
      exact ⟨pre, g.h, g.m, g.si, g.sf, suf, h1, h2, h3, h4, heq⟩
    · exact searchTime_complete
  · intro v hv
    rw [parse_ffmpeg_time_to_seconds] at hv
    obtain ⟨g, hg, rfl⟩ := Option.map_eq_some'.mp hv
    obtain ⟨pre, suf, h1, h2, h3, h4, heq⟩ := searchTime_sound hg
    exact ⟨pre, g.h, g.m, g.si, g.sf, suf, h1, h2, h3, h4, heq, rfl⟩

/-- Witness for C8 at the line `"time=0:1:2.5"` with duration 0 and no
stderr lines. -/
theorem C8_progress_time_parsing_witness :
    (parse_ffmpeg_time_to_seconds "time=0:1:2.5").isSome = true :=
  (C8_progress_time_parsing "time=0:1:2.5" 0 []).1.mpr
    ⟨[], ['0'], ['1'], ['2'], ['5'], [],
      ⟨by decide, by decide⟩, ⟨by decide, by decide⟩,
      ⟨by decide, by decide⟩, ⟨by decide, by decide⟩, by decide⟩
